import Mathlib

/-!
Shallow embedding of the event-statistics service (repository
`event-stats-api`): an in-memory store of timestamped float events with a
rolling one-hour window, implemented twice in the source
(`src/event_service.py` class `EventService` and `src/app/storage.py` class
`EventStore`), plus the Flask transport handler `post_event` of `src/app.py`.

Modelling conventions:
- an absolute time point is an integer number of seconds (`Time := Int`);
  the one-hour window is 3600 of those units;
- event values are exact rationals (`ℚ`), standing for Python floats with
  exact arithmetic; a separate `PyFloat` type (NaN, ±∞, finite) models the
  IEEE special values the store also accepts;
- the clock is the injected clock source of the design: each operation takes
  its `now` as an explicit argument (the two `datetime.now()` reads inside
  one locked `get_statistics` call are modelled as the single injected
  instant of that call);
- the deque `self._events` is a list whose head is the oldest (front)
  element; `append` is `++ [e]`, `popleft` drops the head;
- locking is not modelled: every operation is atomic in this embedding,
  matching the mutual-exclusion discipline of the source.
-/

/-- An absolute time point, in seconds. -/
abbrev Time := Int

/-- The one-hour statistics window (`TIME_WINDOW = timedelta(hours=1)` in
`event_service.py`, `timedelta(hours=1)` in `storage.py`), in seconds. -/
def TIME_WINDOW : Time := 3600

/-- The store state: the deque of `(timestamp, value)` tuples, head = front
(oldest). Generic in the value type so that both the exact-rational and the
`PyFloat` readings share one model. -/
structure State (α : Type) where
  events : List (Time × α)
deriving DecidableEq, Repr

/-- The eviction while-loop shared by both implementations
(`event_service.py` lines 109-111, `storage.py` lines 33-35):
`while self._events and self._events[0][0] < cutoff_time: self._events.popleft()`. -/
def dropOld (cutoff : Time) : List (Time × α) → List (Time × α)
  | [] => []
  | (ts, v) :: rest => if ts < cutoff then dropOld cutoff rest else (ts, v) :: rest

/-- The list-comprehension filter shared by both implementations
(`event_service.py` lines 72-75, `storage.py` lines 28-31):
`[value for timestamp, value in self._events if timestamp >= cutoff_time]`. -/
def recent_values (cutoff : Time) (events : List (Time × α)) : List α :=
  (events.filter fun e => cutoff ≤ e.1).map Prod.snd

/-- One statistics result: `{"count": ..., "min": ..., "max": ..., "mean": ...}`
with `min`/`max`/`mean` absent (`None`) when there are no recent events. -/
structure Stats (α : Type) where
  count : Nat
  min : Option α
  max : Option α
  mean : Option α
deriving DecidableEq, Repr

/-- Statistics of a list of values, as computed by `event_service.py` lines
78-96 (and, for `min`/`max`/`count`, by `storage.py` lines 38-51; also the
body of `calculate_statistics` in `src/app/utils.py`): Python's builtin
`min`/`max` scan keeping the current best, modelled by `foldl` over a total
order, and `mean = sum(values) / count`.  `statistics.mean` used by
`storage.py` computes exactly this value in exact arithmetic. -/
def calculate_statistics : List ℚ → Stats ℚ
  | [] => ⟨0, none, none, none⟩
  | v :: vs =>
      ⟨(v :: vs).length, some (vs.foldl min v), some (vs.foldl max v),
        some ((v :: vs).sum / ((v :: vs).length : ℚ))⟩

namespace EventService

/-- `EventService._cleanup_old_events` (`event_service.py` lines 98-111):
computes `cutoff_time = now - TIME_WINDOW` from the clock, then runs the
front-eviction loop. -/
def cleanup_old_events (now : Time) (events : List (Time × α)) : List (Time × α) :=
  dropOld (now - TIME_WINDOW) events

/-- `EventService.add_event` (`event_service.py` lines 36-53): appends
`(timestamp, value)` to the end of the deque, then cleans up old events,
with `now` supplied by the clock at call time.  (Timezone normalisation is
identity here: a `Time` is already an absolute instant.) -/
def add_event (now ts : Time) (v : α) (s : State α) : State α :=
  ⟨cleanup_old_events now (s.events ++ [(ts, v)])⟩

/-- `EventService.get_statistics` (`event_service.py` lines 55-96): cleans up
old events, filters events with `timestamp >= now - TIME_WINDOW`, and
returns the statistics together with the mutated store. -/
def get_statistics (now : Time) (s : State ℚ) : Stats ℚ × State ℚ :=
  let events := cleanup_old_events now s.events
  (calculate_statistics (recent_values (now - TIME_WINDOW) events), ⟨events⟩)

/-- `EventService.clear` (`event_service.py` lines 113-119). -/
def clear (_ : State α) : State α := ⟨[]⟩

end EventService

namespace EventStore

/-- `EventStore.store_event` (`storage.py` lines 14-20): appends the event;
performs NO eviction. -/
def store_event (ts : Time) (v : α) (s : State α) : State α :=
  ⟨s.events ++ [(ts, v)]⟩

/-- `EventStore.get_recent_stats` (`storage.py` lines 22-51): computes
`cutoff_time = now - 1h`, filters the recent values FIRST, then trims old
events from the front, then computes the statistics (`statistics.mean`
modelled as the exact mean `sum / count`). -/
def get_recent_stats (now : Time) (s : State ℚ) : Stats ℚ × State ℚ :=
  let cutoff := now - TIME_WINDOW
  let recent := recent_values cutoff s.events
  (calculate_statistics recent, ⟨dropOld cutoff s.events⟩)

end EventStore

section DropOldLemmas

variable {α : Type}

/-- The eviction loop removes a prefix: what it removed, prepended to what it
kept, is the original deque, and every removed event is older than the cutoff. -/
theorem dropOld_spec (cutoff : Time) (l : List (Time × α)) :
    ∃ pre, l = pre ++ dropOld cutoff l ∧ ∀ e ∈ pre, e.1 < cutoff := by
  induction l with
  | nil => exact ⟨[], rfl, by simp⟩
  | cons e rest ih =>
      by_cases h : e.1 < cutoff
      · obtain ⟨pre, hpre, hold⟩ := ih
        refine ⟨e :: pre, ?_, ?_⟩
        · simpa [dropOld, h] using congrArg (e :: ·) hpre
        · intro x hx
          rcases List.mem_cons.mp hx with hx | hx
          · simpa [hx] using h
          · exact hold x hx
      · exact ⟨[], by simp [dropOld, h], by simp⟩

/-- The eviction loop stops at the first in-window event: the kept deque is
empty or starts with an event at or after the cutoff. -/
theorem dropOld_head (cutoff : Time) (l : List (Time × α)) :
    dropOld cutoff l = [] ∨
      ∃ e rest, dropOld cutoff l = e :: rest ∧ cutoff ≤ e.1 := by
  induction l with
  | nil => exact Or.inl rfl
  | cons e rest ih =>
      by_cases h : e.1 < cutoff
      · simpa [dropOld, h] using ih
      · exact Or.inr ⟨e, rest, by simp [dropOld, h], le_of_not_lt h⟩

/-- The kept deque is a suffix of the original deque. -/
theorem dropOld_suffix (cutoff : Time) (l : List (Time × α)) :
    dropOld cutoff l <:+ l := by
  obtain ⟨pre, hpre, -⟩ := dropOld_spec cutoff l
  exact ⟨pre, hpre.symm⟩

/-- Running the eviction loop twice with the same cutoff is the same as
running it once. -/
theorem dropOld_idem (cutoff : Time) (l : List (Time × α)) :
    dropOld cutoff (dropOld cutoff l) = dropOld cutoff l := by
  rcases dropOld_head cutoff l with h | ⟨e, rest, h, he⟩
  · simp [h, dropOld]
  · simp [h, dropOld, not_lt.mpr he]

/-- Filtering at a cutoff `c ≥ c'` is unchanged by first evicting at `c'`:
every evicted event fails the filter as well. -/
theorem recent_values_dropOld {c' c : Time} (h : c' ≤ c) (l : List (Time × α)) :
    recent_values c (dropOld c' l) = recent_values c l := by
  obtain ⟨pre, hpre, hold⟩ := dropOld_spec c' l
  conv_rhs => rw [hpre]
  have hnil : (pre.filter fun e => c ≤ e.1) = [] := by
    apply List.filter_eq_nil_iff.mpr
    intro e he
    have := lt_of_lt_of_le (hold e he) h
    simpa using not_le.mpr this
  simp [recent_values, List.filter_append, hnil]

/-- The filter distributes over append. -/
theorem recent_values_append (c : Time) (l₁ l₂ : List (Time × α)) :
    recent_values c (l₁ ++ l₂) = recent_values c l₁ ++ recent_values c l₂ := by
  simp [recent_values, List.filter_append]

end DropOldLemmas

section FoldMinMax

/-- Python's `min` over a nonempty list, modelled as `foldl min`, is a lower
bound of the list. -/
theorem foldl_min_le (vs : List ℚ) :
    ∀ (v : ℚ), ∀ x ∈ v :: vs, vs.foldl min v ≤ x := by
  induction vs with
  | nil => intro v x hx; simp at hx; simp [hx]
  | cons w ws ih =>
      intro v x hx
      rcases List.mem_cons.mp hx with hx | hx
      · rw [hx]
        calc ws.foldl min (min v w) ≤ min v w := ih (min v w) _ (List.mem_cons_self _ _)
        _ ≤ v := min_le_left _ _
      · rcases List.mem_cons.mp hx with hx | hx
        · rw [hx]
          calc ws.foldl min (min v w) ≤ min v w := ih (min v w) _ (List.mem_cons_self _ _)
          _ ≤ w := min_le_right _ _
        · exact ih (min v w) x (List.mem_cons_of_mem _ hx)

/-- Python's `min` over a nonempty list is one of its elements. -/
theorem foldl_min_mem (vs : List ℚ) : ∀ (v : ℚ), vs.foldl min v ∈ v :: vs := by
  induction vs with
  | nil => intro v; simp
  | cons w ws ih =>
      intro v
      have h := ih (min v w)
      rcases min_choice v w with hm | hm <;>
        · rw [List.foldl_cons]
          rcases List.mem_cons.mp h with h' | h' <;> simp [h', hm] at * <;> simp [*]

/-- Python's `max` over a nonempty list is an upper bound of the list. -/
theorem le_foldl_max (vs : List ℚ) :
    ∀ (v : ℚ), ∀ x ∈ v :: vs, x ≤ vs.foldl max v := by
  induction vs with
  | nil => intro v x hx; simp at hx; simp [hx]
  | cons w ws ih =>
      intro v x hx
      rcases List.mem_cons.mp hx with hx | hx
      · rw [hx]
        calc v ≤ max v w := le_max_left _ _
        _ ≤ ws.foldl max (max v w) := ih (max v w) _ (List.mem_cons_self _ _)
      · rcases List.mem_cons.mp hx with hx | hx
        · rw [hx]
          calc w ≤ max v w := le_max_right _ _
          _ ≤ ws.foldl max (max v w) := ih (max v w) _ (List.mem_cons_self _ _)
        · exact ih (max v w) x (List.mem_cons_of_mem _ hx)

/-- Python's `max` over a nonempty list is one of its elements. -/
theorem foldl_max_mem (vs : List ℚ) : ∀ (v : ℚ), vs.foldl max v ∈ v :: vs := by
  induction vs with
  | nil => intro v; simp
  | cons w ws ih =>
      intro v
      have h := ih (max v w)
      rcases max_choice v w with hm | hm <;>
        · rw [List.foldl_cons]
          rcases List.mem_cons.mp h with h' | h' <;> simp [h', hm] at * <;> simp [*]

end FoldMinMax

/-- A Python float as stored by the service: the store performs no
validation, so beside finite values (exact rationals here) it accepts the
IEEE special values `nan`, `inf` and `-inf`. -/
inductive PyFloat where
  | nan
  | inf
  | ninf
  | fin (q : ℚ)
deriving DecidableEq, Repr

namespace PyFloat

/-- IEEE-754 `<` on Python floats: every comparison involving NaN is false;
`-inf < finite < inf`; finite values compare exactly. -/
def lt : PyFloat → PyFloat → Bool
  | nan, _ => false
  | _, nan => false
  | ninf, ninf => false
  | ninf, _ => true
  | _, ninf => false
  | inf, _ => false
  | fin _, inf => true
  | fin a, fin b => decide (a < b)

/-- IEEE-754 `<=` on Python floats: every comparison involving NaN is false. -/
def le : PyFloat → PyFloat → Bool
  | nan, _ => false
  | _, nan => false
  | ninf, _ => true
  | _, ninf => false
  | _, inf => true
  | inf, _ => false
  | fin a, fin b => decide (a ≤ b)

/-- IEEE-754 addition on Python floats, with finite sums exact: NaN
propagates, opposite infinities give NaN, an infinity absorbs a finite value. -/
def add : PyFloat → PyFloat → PyFloat
  | nan, _ => nan
  | _, nan => nan
  | inf, ninf => nan
  | ninf, inf => nan
  | inf, _ => inf
  | _, inf => inf
  | ninf, _ => ninf
  | _, ninf => ninf
  | fin a, fin b => fin (a + b)

/-- Division of a Python float by a positive integer count, finite case exact. -/
def divNat : PyFloat → Nat → PyFloat
  | nan, _ => nan
  | inf, _ => inf
  | ninf, _ => ninf
  | fin a, n => fin (a / (n : ℚ))

end PyFloat

/-- Statistics of a list of `PyFloat` values, as computed by
`event_service.py` lines 78-96 under Python float semantics: `min(values)`
and `max(values)` are the builtin scans (keep the current best, replace it
when the next item compares `<` resp. `>` true — NaN comparisons being
always false), `sum(values)` starts from `0` and folds `+`, and
`mean = sum / count`. -/
def calculate_statisticsF : List PyFloat → Stats PyFloat
  | [] => ⟨0, none, none, none⟩
  | v :: vs =>
      ⟨(v :: vs).length,
        some (vs.foldl (fun cur x => if PyFloat.lt x cur then x else cur) v),
        some (vs.foldl (fun cur x => if PyFloat.lt cur x then x else cur) v),
        some (PyFloat.divNat ((v :: vs).foldl PyFloat.add (PyFloat.fin 0)) (v :: vs).length)⟩

namespace EventService

/-- `EventService.get_statistics` read at Python float precision: the same
code as `get_statistics`, with the arithmetic of `calculate_statisticsF`. -/
def get_statisticsF (now : Time) (s : State PyFloat) : Stats PyFloat × State PyFloat :=
  let events := cleanup_old_events now s.events
  (calculate_statisticsF (recent_values (now - TIME_WINDOW) events), ⟨events⟩)

end EventService

/-- One `record` call as the service receives it: the clock's `now` at call
time, and the event's `timestamp` and `value`. -/
structure RecCall where
  now : Time
  ts : Time
  v : ℚ
deriving DecidableEq, Repr

/-- Run a sequence of `EventService.add_event` calls from a state. -/
def runRecords (rs : List RecCall) (s : State ℚ) : State ℚ :=
  rs.foldl (fun s r => EventService.add_event r.now r.ts r.v s) s

/-- Run a sequence of `EventStore.store_event` calls from a state (the
clock value is unused: `store_event` never reads the clock). -/
def runStoreRecords (rs : List RecCall) (s : State ℚ) : State ℚ :=
  rs.foldl (fun s r => EventStore.store_event r.ts r.v s) s

/-- The full arrival-ordered sequence of events a list of record calls
submits. -/
def history (rs : List RecCall) : List (Time × ℚ) :=
  rs.map fun r => (r.ts, r.v)

/-- One call to the `EventService` core: `add_event`, `get_statistics`
(which mutates by evicting), or `clear`. -/
inductive SOp where
  | record (now ts : Time) (v : ℚ)
  | query (now : Time)
  | clearAll
deriving DecidableEq, Repr

/-- Run a sequence of `EventService` calls from a state. -/
def runSOps (ops : List SOp) (s : State ℚ) : State ℚ :=
  ops.foldl
    (fun s op =>
      match op with
      | SOp.record now ts v => EventService.add_event now ts v s
      | SOp.query now => (EventService.get_statistics now s).2
      | SOp.clearAll => EventService.clear s)
    s

/-- The arrival-ordered sequence of all events a list of `EventService`
calls records. -/
def recordedOf (ops : List SOp) : List (Time × ℚ) :=
  ops.filterMap fun op =>
    match op with
    | SOp.record _ ts v => some (ts, v)
    | _ => none

/-- One call to the `EventStore` core: `store_event` or `get_recent_stats`
(which mutates by evicting); `EventStore` has no clear operation. -/
inductive EOp where
  | record (ts : Time) (v : ℚ)
  | query (now : Time)
deriving DecidableEq, Repr

/-- Run a sequence of `EventStore` calls from a state. -/
def runEOps (ops : List EOp) (s : State ℚ) : State ℚ :=
  ops.foldl
    (fun s op =>
      match op with
      | EOp.record ts v => EventStore.store_event ts v s
      | EOp.query now => (EventStore.get_recent_stats now s).2)
    s

/-- The arrival-ordered sequence of all events a list of `EventStore` calls
records. -/
def recordedE (ops : List EOp) : List (Time × ℚ) :=
  ops.filterMap fun op =>
    match op with
    | EOp.record ts v => some (ts, v)
    | _ => none

/-- The clock value a call observes is at most `nowq` (vacuous for `clear`,
which never reads the clock). -/
def SOp.nowLe (nowq : Time) : SOp → Bool
  | SOp.record now _ _ => decide (now ≤ nowq)
  | SOp.query now => decide (now ≤ nowq)
  | SOp.clearAll => true

section TraceLemmas

/-- The statistics half of `get_statistics` depends only on the events held
before the call: the cleanup step removes only events the filter excludes
anyway. -/
theorem get_statistics_fst (now : Time) (s : State ℚ) :
    (EventService.get_statistics now s).1
      = calculate_statistics (recent_values (now - TIME_WINDOW) s.events) := by
  simp [EventService.get_statistics, EventService.cleanup_old_events,
    recent_values_dropOld (le_refl (now - TIME_WINDOW))]

/-- The statistics half of `get_recent_stats`, unfolded. -/
theorem get_recent_stats_fst (now : Time) (s : State ℚ) :
    (EventStore.get_recent_stats now s).1
      = calculate_statistics (recent_values (now - TIME_WINDOW) s.events) := rfl

/-- `store_event` runs accumulate exactly the submitted history. -/
theorem runStoreRecords_events (rs : List RecCall) :
    ∀ s : State ℚ, (runStoreRecords rs s).events = s.events ++ history rs := by
  induction rs with
  | nil => intro s; simp [runStoreRecords, history]
  | cons r rest ih =>
      intro s
      have := ih (EventStore.store_event r.ts r.v s)
      simpa [runStoreRecords, EventStore.store_event, history] using this

/-- Events seen through the window filter at a query instant `nowq` are
unaffected by the evictions a run of `add_event` calls performs, provided
every call's clock value is at most `nowq`: each eviction removes only
events already outside the window at `nowq`. -/
theorem runRecords_recent (nowq : Time) (rs : List RecCall) :
    ∀ s : State ℚ, (∀ r ∈ rs, r.now ≤ nowq) →
      recent_values (nowq - TIME_WINDOW) ((runRecords rs s).events)
        = recent_values (nowq - TIME_WINDOW) (s.events ++ history rs) := by
  induction rs with
  | nil => intro s _; simp [runRecords, history]
  | cons r rest ih =>
      intro s h
      have hr : r.now ≤ nowq := h r (List.mem_cons_self _ _)
      have hrest : ∀ x ∈ rest, x.now ≤ nowq := fun x hx => h x (List.mem_cons_of_mem _ hx)
      have step : runRecords (r :: rest) s = runRecords rest (EventService.add_event r.now r.ts r.v s) := by
        simp [runRecords]
      rw [step, ih _ hrest]
      have hcut : r.now - TIME_WINDOW ≤ nowq - TIME_WINDOW := sub_le_sub_right hr _
      simp only [EventService.add_event, EventService.cleanup_old_events,
        recent_values_append, recent_values_dropOld hcut, history, List.map_cons]
      rw [List.append_assoc, ← recent_values_append]
      simp

/-- The same preservation for arbitrary `EventService` call sequences
without `clear`: the events seen through the window filter at `nowq` equal
those of the full recorded history. -/
theorem runSOps_recent (nowq : Time) (ops : List SOp) :
    ∀ s : State ℚ, (∀ op ∈ ops, SOp.nowLe nowq op = true) → SOp.clearAll ∉ ops →
      recent_values (nowq - TIME_WINDOW) ((runSOps ops s).events)
        = recent_values (nowq - TIME_WINDOW) (s.events ++ recordedOf ops) := by
  induction ops with
  | nil => intro s _ _; simp [runSOps, recordedOf]
  | cons op rest ih =>
      intro s h hnc
      have hrest : ∀ x ∈ rest, SOp.nowLe nowq x = true := fun x hx => h x (List.mem_cons_of_mem _ hx)
      have hncrest : SOp.clearAll ∉ rest := fun hx => hnc (List.mem_cons_of_mem _ hx)
      have hop := h op (List.mem_cons_self _ _)
      match op with
      | SOp.record now ts v =>
          have hle : now ≤ nowq := by simpa [SOp.nowLe] using hop
          have hcut : now - TIME_WINDOW ≤ nowq - TIME_WINDOW := sub_le_sub_right hle _
          have step : runSOps (SOp.record now ts v :: rest) s
              = runSOps rest (EventService.add_event now ts v s) := by
            simp [runSOps]
          rw [step, ih _ hrest hncrest]
          simp only [EventService.add_event, EventService.cleanup_old_events,
            recent_values_append, recent_values_dropOld hcut, recordedOf, List.filterMap_cons]
          rw [List.append_assoc, ← recent_values_append]
          simp
      | SOp.query now =>
          have hle : now ≤ nowq := by simpa [SOp.nowLe] using hop
          have hcut : now - TIME_WINDOW ≤ nowq - TIME_WINDOW := sub_le_sub_right hle _
          have step : runSOps (SOp.query now :: rest) s
              = runSOps rest ⟨dropOld (now - TIME_WINDOW) s.events⟩ := by
            simp [runSOps, EventService.get_statistics, EventService.cleanup_old_events]
          rw [step, ih _ hrest hncrest]
          simp only [recent_values_append, recent_values_dropOld hcut, recordedOf,
            List.filterMap_cons]
      | SOp.clearAll => exact absurd (List.mem_cons_self _ _) hnc

/-- Appending the same element on the right preserves the suffix relation. -/
theorem isSuffix_append_single {l H : List (Time × ℚ)} (h : l <:+ H) (e : Time × ℚ) :
    l ++ [e] <:+ H ++ [e] := by
  obtain ⟨p, hp⟩ := h
  exact ⟨p, by rw [← hp, List.append_assoc]⟩

/-- Every `EventService` call sequence keeps the stored deque a contiguous
suffix of (an extension of) the arrival history: `add_event` appends at the
back, evictions drop only from the front, `clear` drops everything. -/
theorem runSOps_suffix (ops : List SOp) :
    ∀ (s : State ℚ) (H : List (Time × ℚ)), s.events <:+ H →
      (runSOps ops s).events <:+ H ++ recordedOf ops := by
  induction ops with
  | nil => intro s H h; simpa [runSOps, recordedOf] using h
  | cons op rest ih =>
      intro s H h
      match op with
      | SOp.record now ts v =>
          have step : runSOps (SOp.record now ts v :: rest) s
              = runSOps rest (EventService.add_event now ts v s) := by
            simp [runSOps]
          have h1 : (EventService.add_event now ts v s).events <:+ H ++ [(ts, v)] := by
            have hdrop : (EventService.add_event now ts v s).events <:+ s.events ++ [(ts, v)] :=
              dropOld_suffix _ _
            exact hdrop.trans (isSuffix_append_single h _)
          have := ih _ _ h1
          rw [step]
          simpa [recordedOf, List.filterMap_cons, List.append_assoc] using this
      | SOp.query now =>
          have step : runSOps (SOp.query now :: rest) s
              = runSOps rest ⟨dropOld (now - TIME_WINDOW) s.events⟩ := by
            simp [runSOps, EventService.get_statistics, EventService.cleanup_old_events]
          have h1 : dropOld (now - TIME_WINDOW) s.events <:+ H :=
            (dropOld_suffix _ _).trans h
          have := ih _ _ h1
          rw [step]
          simpa [recordedOf, List.filterMap_cons] using this
      | SOp.clearAll =>
          have step : runSOps (SOp.clearAll :: rest) s = runSOps rest ⟨[]⟩ := by
            simp [runSOps, EventService.clear]
          have h1 : ([] : List (Time × ℚ)) <:+ H := List.nil_suffix
          have := ih _ _ h1
          rw [step]
          simpa [recordedOf, List.filterMap_cons] using this

/-- The same suffix invariant for `EventStore` call sequences. -/
theorem runEOps_suffix (ops : List EOp) :
    ∀ (s : State ℚ) (H : List (Time × ℚ)), s.events <:+ H →
      (runEOps ops s).events <:+ H ++ recordedE ops := by
  induction ops with
  | nil => intro s H h; simpa [runEOps, recordedE] using h
  | cons op rest ih =>
      intro s H h
      match op with
      | EOp.record ts v =>
          have step : runEOps (EOp.record ts v :: rest) s
              = runEOps rest (EventStore.store_event ts v s) := by
            simp [runEOps]
          have h1 : (EventStore.store_event ts v s).events <:+ H ++ [(ts, v)] :=
            isSuffix_append_single h _
          have := ih _ _ h1
          rw [step]
          simpa [recordedE, List.filterMap_cons, List.append_assoc] using this
      | EOp.query now =>
          have step : runEOps (EOp.query now :: rest) s
              = runEOps rest ⟨dropOld (now - TIME_WINDOW) s.events⟩ := by
            simp [runEOps, EventStore.get_recent_stats]
          have h1 : dropOld (now - TIME_WINDOW) s.events <:+ H :=
            (dropOld_suffix _ _).trans h
          have := ih _ _ h1
          rw [step]
          simpa [recordedE, List.filterMap_cons] using this

end TraceLemmas

/-- A JSON value as `request.get_json()` delivers it to the handler. -/
inductive Json where
  | null
  | bool (b : Bool)
  | num (q : ℚ)
  | str (s : String)
  | arr (elems : List Json)
  | obj (fields : List (String × Json))

/-- Dictionary key lookup (`data['timestamp']`, `'timestamp' in data`) on the
parsed JSON object, whose keys are assumed distinct (JSON object semantics). -/
def lookupField (fields : List (String × Json)) (k : String) : Option Json :=
  match fields with
  | [] => none
  | (k', v) :: rest => if k' = k then some v else lookupField rest k

/-- The value of a digit string, most significant first. -/
def natOfDigits (ds : List Char) : Nat :=
  ds.foldl (fun a c => a * 10 + (c.toNat - 48)) 0

/-- The exact rational value of a decimal float literal with sign `neg`,
integer digits `ip`, fraction digits `fp` and decimal exponent `e`:
`± ip.fp * 10^e`, one `mkRat` of integers. -/
def floatValue (neg : Bool) (ip fp : List Char) (e : Int) : ℚ :=
  let m : Int := Int.ofNat (natOfDigits (ip ++ fp))
  let m : Int := if neg then -m else m
  let exp : Int := e - Int.ofNat fp.length
  if 0 ≤ exp then mkRat (m * Int.ofNat (10 ^ exp.toNat)) 1
  else mkRat m (10 ^ (-exp).toNat)

/-- ASCII whitespace stripped by CPython's `float(string)` (`str.strip`
semantics on ASCII input: space, tab, LF, CR, VT, FF). -/
def isPySpace (c : Char) : Bool :=
  c == ' ' || c == '\t' || c == '\n' || c == '\r' || c == '\x0b' || c == '\x0c'

/-- Strip whitespace from both ends, as `float(string)` does before
parsing. -/
def stripSpaces (cs : List Char) : List Char :=
  ((cs.dropWhile isPySpace).reverse.dropWhile isPySpace).reverse

/-- Collect the remaining digits of a CPython `digitpart`
(`digit (["_"] digit)*`): a single underscore is allowed only between two
digits; the scan stops before anything else, returning the digits gathered
so far and the unconsumed remainder. -/
def digits_go (acc : List Char) : List Char → List Char × List Char
  | '_' :: c :: rest =>
      if c.isDigit then digits_go (acc ++ [c]) rest else (acc, '_' :: c :: rest)
  | c :: rest => if c.isDigit then digits_go (acc ++ [c]) rest else (acc, c :: rest)
  | [] => (acc, [])

/-- Parse a CPython `digitpart`: at least one digit, single underscores
permitted between digits.  Returns the digits (underscores removed) and the
remainder, or `none` when the input does not start with a digit. -/
def parseDigitPart : List Char → Option (List Char × List Char)
  | c :: rest => if c.isDigit then some (digits_go [c] rest) else none
  | [] => none

/-- The signed decimal exponent named by an exponent digitpart. -/
def parseExpValue (ds : List Char) (eneg : Bool) : Int :=
  if eneg then -Int.ofNat (natOfDigits ds) else Int.ofNat (natOfDigits ds)

/-- Finish a float literal after its mantissa digits: either the end of the
input, or `e`/`E`, an optional sign and an exponent digitpart consuming the
rest. -/
def finishNumber (neg : Bool) (ip fp : List Char) : List Char → Option ℚ
  | [] => some (floatValue neg ip fp 0)
  | c :: rest =>
      if c = 'e' ∨ c = 'E' then
        match rest with
        | '+' :: r2 =>
            match parseDigitPart r2 with
            | some (ds, []) => some (floatValue neg ip fp (parseExpValue ds false))
            | _ => none
        | '-' :: r2 =>
            match parseDigitPart r2 with
            | some (ds, []) => some (floatValue neg ip fp (parseExpValue ds true))
            | _ => none
        | r2 =>
            match parseDigitPart r2 with
            | some (ds, []) => some (floatValue neg ip fp (parseExpValue ds false))
            | _ => none
      else none

/-- Parse an unsigned finite CPython float literal: integer digits, an
optional `.` with optional fraction digits (at least one digit in the
mantissa overall), then an optional exponent. -/
def parseNumber (neg : Bool) (cs : List Char) : Option ℚ :=
  match parseDigitPart cs with
  | some (ip, rest) =>
      match rest with
      | '.' :: r2 =>
          match parseDigitPart r2 with
          | some (fp, r3) => finishNumber neg ip fp r3
          | none => finishNumber neg ip [] r2
      | _ => finishNumber neg ip [] rest
  | none =>
      match cs with
      | '.' :: r2 =>
          match parseDigitPart r2 with
          | some (fp, r3) => finishNumber neg [] fp r3
          | none => none
      | _ => none

/-- The part of `float(string)` after the optional sign: the
case-insensitive special spellings `inf`, `infinity` and `nan`, or a finite
decimal literal. -/
def parseSigned (neg : Bool) (cs : List Char) : Option PyFloat :=
  let low := cs.map Char.toLower
  if low = ['i', 'n', 'f'] ∨ low = ['i', 'n', 'f', 'i', 'n', 'i', 't', 'y'] then
    some (if neg then PyFloat.ninf else PyFloat.inf)
  else if low = ['n', 'a', 'n'] then some PyFloat.nan
  else (parseNumber neg cs).map PyFloat.fin

/-- CPython's `float(string)`: strip surrounding whitespace, then an
optional sign followed by `inf`/`infinity`/`nan` (case-insensitive) or a
decimal literal — digits with single underscores between them, an optional
fractional part, an optional exponent — whose exact rational value is
taken.  The model's alphabet is ASCII: CPython first maps Unicode decimal
digits and Unicode whitespace to ASCII, a transliteration outside this
embedding. -/
def parseFloat (s : String) : Option PyFloat :=
  match stripSpaces s.toList with
  | '+' :: r => parseSigned false r
  | '-' :: r => parseSigned true r
  | r => parseSigned false r

/-- Python's `float(x)` on a JSON-decoded value (`app.py` line 58): numbers
pass through as finite floats, booleans coerce to `1.0`/`0.0` (`bool`
subclasses `int`), strings parse as `float(string)` — which accepts
non-finite spellings, so the result is a `PyFloat` (`ValueError` when the
string does not parse) — and `None`, lists and objects raise `TypeError`. -/
def float_of : Json → Option PyFloat
  | Json.num q => some (PyFloat.fin q)
  | Json.bool b => some (PyFloat.fin (if b then 1 else 0))
  | Json.str s => parseFloat s
  | _ => none

/-- The single-character replacement `data['timestamp'].replace('Z', '+00:00')`
(`app.py` line 52). -/
def replaceZChars : List Char → List Char
  | [] => []
  | 'Z' :: rest => '+' :: '0' :: '0' :: ':' :: '0' :: '0' :: replaceZChars rest
  | c :: rest => c :: replaceZChars rest

/-- String form of `replaceZChars`. -/
def replaceZ (s : String) : String := ⟨replaceZChars s.toList⟩

/-- What the `POST /event` handler produces: the HTTP status code, and the
event passed to `add_event` when one was stored — a `PyFloat`, since
`float()` can hand the store a non-finite value. -/
structure HandlerResult where
  status : Nat
  recorded : Option (Time × PyFloat)
deriving DecidableEq, Repr

/-- The Flask handler `post_event` (`app.py` lines 23-72), over a request
body that is a JSON object (`some fields`) or absent/empty (`none`), with
`datetime.fromisoformat` supplied as the injected parser `parseTs` (the
handler's control flow uses only whether parsing succeeds):
reject a falsy body, a missing `timestamp` or `value` key, a `timestamp`
that is not a string (`.replace` raises `AttributeError`, caught as 400) or
does not parse, and a `value` that `float()` rejects; otherwise store the
event and answer 201. -/
def post_event (parseTs : String → Option Time)
    (body : Option (List (String × Json))) : HandlerResult :=
  match body with
  | none => ⟨400, none⟩
  | some [] => ⟨400, none⟩
  | some fields =>
      match lookupField fields "timestamp" with
        | none => ⟨400, none⟩
        | some tsj =>
            match lookupField fields "value" with
            | none => ⟨400, none⟩
            | some vj =>
                match tsj with
                | Json.str s =>
                    match parseTs (replaceZ s) with
                    | none => ⟨400, none⟩
                    | some ts =>
                        match float_of vj with
                        | none => ⟨400, none⟩
                        | some v => ⟨201, some (ts, v)⟩
                | _ => ⟨400, none⟩

/-- Characterisation of the statistics computation: the count is the number
of values, and on a nonempty list `min` is a smallest element, `max` a
largest, and `mean` the sum divided by the count. -/
theorem calculate_statistics_char (l : List ℚ) :
    (calculate_statistics l).count = l.length ∧
    (0 < l.length →
      ∃ mn mx, (calculate_statistics l).min = some mn ∧
        (calculate_statistics l).max = some mx ∧
        mn ∈ l ∧ mx ∈ l ∧ (∀ x ∈ l, mn ≤ x ∧ x ≤ mx) ∧
        (calculate_statistics l).mean = some (l.sum / (l.length : ℚ))) := by
  cases l with
  | nil => exact ⟨rfl, by intro h; simp at h⟩
  | cons v vs =>
      exact ⟨rfl, fun _ =>
        ⟨vs.foldl min v, vs.foldl max v, rfl, rfl,
          foldl_min_mem vs v, foldl_max_mem vs v,
          fun x hx => ⟨foldl_min_le vs v x hx, le_foldl_max vs v x hx⟩, rfl⟩⟩

/-- C1: for every store state and query instant `now`, `summary(now)` (both
`EventService.get_statistics` and `EventStore.get_recent_stats`, which agree)
counts exactly the stored events with `timestamp >= now - 1h`, and when the
count is positive returns `min` = the smallest included value, `max` = the
largest, and `mean` = the sum of the included values divided by the count. -/
theorem C1_summary_window_stats (now : Time) (s : State ℚ) :
    (EventStore.get_recent_stats now s).1 = (EventService.get_statistics now s).1 ∧
    (EventService.get_statistics now s).1.count
      = (recent_values (now - TIME_WINDOW) s.events).length ∧
    (0 < (recent_values (now - TIME_WINDOW) s.events).length →
      ∃ mn mx, (EventService.get_statistics now s).1.min = some mn ∧
        (EventService.get_statistics now s).1.max = some mx ∧
        mn ∈ recent_values (now - TIME_WINDOW) s.events ∧
        mx ∈ recent_values (now - TIME_WINDOW) s.events ∧
        (∀ x ∈ recent_values (now - TIME_WINDOW) s.events, mn ≤ x ∧ x ≤ mx) ∧
        (EventService.get_statistics now s).1.mean
          = some ((recent_values (now - TIME_WINDOW) s.events).sum
              / ((recent_values (now - TIME_WINDOW) s.events).length : ℚ))) := by
  refine ⟨by rw [get_statistics_fst, get_recent_stats_fst], ?_⟩
  rw [get_statistics_fst]
  exact calculate_statistics_char _

/-- C2 counterexample: with one stored event at timestamp 0 and the clock at
4000, the claim's append-then-evict behaviour would leave only the new
event (timestamp 0 is older than the cutoff 400), but
`EventStore.store_event` keeps the stale one: eviction on record does not
hold for this implementation. -/
theorem C2_counterexample :
    (EventStore.store_event 5000 2 ⟨[(0, 1)]⟩).events = [(0, (1 : ℚ)), (5000, 2)] ∧
    dropOld (4000 - TIME_WINDOW) ((⟨[(0, (1 : ℚ))]⟩ : State ℚ).events ++ [(5000, 2)])
      = [(5000, 2)] ∧
    (EventStore.store_event 5000 2 ⟨[(0, 1)]⟩).events
      ≠ dropOld (4000 - TIME_WINDOW) ((⟨[(0, (1 : ℚ))]⟩ : State ℚ).events ++ [(5000, 2)]) := by
  decide

/-- C2 amended: `EventService.add_event` appends the event to the end and
then evicts from the front exactly as the claim describes (every removed
event is older than `now - 1h`, and the loop stops at the first in-window
event or an empty deque); `EventStore.store_event`, by contrast, only
appends and performs no eviction at record time. -/
theorem C2_amended_record (now ts : Time) (v : ℚ) (s : State ℚ) :
    (∃ pre, s.events ++ [(ts, v)] = pre ++ (EventService.add_event now ts v s).events ∧
        (∀ e ∈ pre, e.1 < now - TIME_WINDOW) ∧
        ((EventService.add_event now ts v s).events = [] ∨
          ∃ e rest, (EventService.add_event now ts v s).events = e :: rest ∧
            now - TIME_WINDOW ≤ e.1)) ∧
    (EventStore.store_event ts v s).events = s.events ++ [(ts, v)] := by
  refine ⟨?_, rfl⟩
  obtain ⟨pre, hpre, hold⟩ := dropOld_spec (now - TIME_WINDOW) (s.events ++ [(ts, v)])
  exact ⟨pre, hpre, hold, dropOld_head _ _⟩

/-- The count the spec's sentence about C3 asks for, built from the spec's
words for comparison with the code: the number of events with
`timestamp in [now - 1h, now]` (closed interval, upper bound included). -/
def count_in_closed_window (now : Time) (events : List (Time × ℚ)) : Nat :=
  (events.filter fun e => decide (now - TIME_WINDOW ≤ e.1 ∧ e.1 ≤ now)).length

/-- C3 counterexample: a single event recorded with timestamp 100 while the
clock reads 0 (a future-dated event) is counted by `summary(0)` — the code's
filter has no upper bound — whereas the claim's closed interval
`[now - 1h, now]` would exclude it. -/
theorem C3_counterexample :
    (EventService.get_statistics 0
        (runRecords [({ now := 0, ts := 100, v := 1 } : RecCall)] ⟨[]⟩)).1.count = 1 ∧
    count_in_closed_window 0 (history [({ now := 0, ts := 100, v := 1 } : RecCall)]) = 0 := by
  decide

/-- C3 amended: for every sequence of `record` calls whose clock values are
at most the query instant, followed by `summary(nowq)`, the returned count
equals the number of recorded events with `timestamp >= nowq - 1h` — with no
upper bound, so events timestamped after `nowq` DO contribute. -/
theorem C3_amended_count (rs : List RecCall) (nowq : Time)
    (h : ∀ r ∈ rs, r.now ≤ nowq) :
    (EventService.get_statistics nowq (runRecords rs ⟨[]⟩)).1.count
      = ((history rs).filter fun e => nowq - TIME_WINDOW ≤ e.1).length := by
  rw [get_statistics_fst, runRecords_recent nowq rs ⟨[]⟩ h]
  have hchar := (calculate_statistics_char
    (recent_values (nowq - TIME_WINDOW) (([] : List (Time × ℚ)) ++ history rs))).1
  rw [hchar]
  simp [recent_values]

/-- C4: when no stored event is inside the window (in particular on the
empty store), both implementations of `summary` return `count = 0` and
`min`, `max`, `mean` all absent. -/
theorem C4_empty_window (now : Time) (s : State ℚ)
    (h : ∀ e ∈ s.events, e.1 < now - TIME_WINDOW) :
    (EventService.get_statistics now s).1 = ⟨0, none, none, none⟩ ∧
    (EventStore.get_recent_stats now s).1 = ⟨0, none, none, none⟩ := by
  have hnil : recent_values (now - TIME_WINDOW) s.events = [] := by
    unfold recent_values
    rw [List.filter_eq_nil_iff.mpr fun e he => by simpa using not_le.mpr (h e he)]
    rfl
  constructor
  · rw [get_statistics_fst, hnil]; rfl
  · rw [get_recent_stats_fst, hnil]; rfl

/-- C4 witness: a store holding only an event two hours old, queried at
time 0, yields the empty summary from both implementations. -/
theorem C4_empty_window_witness :
    (EventService.get_statistics 0 ⟨[(-7200, (3 : ℚ))]⟩).1 = ⟨0, none, none, none⟩ ∧
    (EventStore.get_recent_stats 0 ⟨[(-7200, (3 : ℚ))]⟩).1 = ⟨0, none, none, none⟩ :=
  C4_empty_window 0 ⟨[(-7200, 3)]⟩ (by decide)

/-- The mutated store a `get_statistics` call leaves behind: the front-evicted
deque. -/
theorem get_statistics_snd (now : Time) (s : State ℚ) :
    ((EventService.get_statistics now s).2).events
      = dropOld (now - TIME_WINDOW) s.events := rfl

/-- The mutated store a `get_recent_stats` call leaves behind: the
front-evicted deque. -/
theorem get_recent_stats_snd (now : Time) (s : State ℚ) :
    ((EventStore.get_recent_stats now s).2).events
      = dropOld (now - TIME_WINDOW) s.events := rfl

/-- C5 counterexample: the store accepts `NaN`, and on the reachable state
holding a single `NaN` event the summary has `count = 1` with
`min = max = mean = NaN`, for which `min <= mean` is FALSE under IEEE
comparison (every comparison with NaN is false). -/
theorem C5_counterexample :
    0 < (EventService.get_statisticsF 0
          (EventService.add_event 0 0 PyFloat.nan ⟨[]⟩)).1.count ∧
    (EventService.get_statisticsF 0
        (EventService.add_event 0 0 PyFloat.nan ⟨[]⟩)).1.min = some PyFloat.nan ∧
    (EventService.get_statisticsF 0
        (EventService.add_event 0 0 PyFloat.nan ⟨[]⟩)).1.mean = some PyFloat.nan ∧
    (EventService.get_statisticsF 0
        (EventService.add_event 0 0 PyFloat.nan ⟨[]⟩)).1.max = some PyFloat.nan ∧
    PyFloat.le PyFloat.nan PyFloat.nan = false := by
  decide

/-- C5 amended: over finite values with exact arithmetic, whenever the
summary has `count > 0` the returned statistics satisfy
`min <= mean <= max` (in both implementations, which return the same
values); with non-finite values (which `record` accepts) the chain can fail
on NaN. -/
theorem C5_amended_ordered (now : Time) (s : State ℚ)
    (h : 0 < (EventService.get_statistics now s).1.count) :
    ∃ mn me mx,
      (EventService.get_statistics now s).1.min = some mn ∧
      (EventService.get_statistics now s).1.mean = some me ∧
      (EventService.get_statistics now s).1.max = some mx ∧
      (EventStore.get_recent_stats now s).1.min = some mn ∧
      (EventStore.get_recent_stats now s).1.mean = some me ∧
      (EventStore.get_recent_stats now s).1.max = some mx ∧
      mn ≤ me ∧ me ≤ mx := by
  rw [get_statistics_fst] at h
  rw [get_statistics_fst, get_recent_stats_fst]
  set l := recent_values (now - TIME_WINDOW) s.events with hl
  obtain ⟨hcount, hchar⟩ := calculate_statistics_char l
  rw [hcount] at h
  obtain ⟨mn, mx, hmin, hmax, hmnmem, hmxmem, hbounds, hmean⟩ := hchar h
  have hlen : (0 : ℚ) < (l.length : ℚ) := by exact_mod_cast h
  refine ⟨mn, l.sum / (l.length : ℚ), mx, hmin, hmean, hmax, hmin, hmean, hmax, ?_, ?_⟩
  · rw [le_div_iff₀ hlen]
    calc mn * (l.length : ℚ) = l.length • mn := by rw [nsmul_eq_mul, mul_comm]
    _ ≤ l.sum := List.card_nsmul_le_sum l mn fun x hx => (hbounds x hx).1
  · rw [div_le_iff₀ hlen]
    calc l.sum ≤ l.length • mx := List.sum_le_card_nsmul l mx fun x hx => (hbounds x hx).2
    _ = mx * (l.length : ℚ) := by rw [nsmul_eq_mul, mul_comm]

/-- C5 amended, witness: a concrete two-event store (values 2 and 4 at the
query instant) where both implementations return `min = 2 <= mean = 3 <=
max = 4`. -/
theorem C5_amended_ordered_witness :
    ∃ mn me mx,
      (EventService.get_statistics 0 ⟨[(0, (2 : ℚ)), (0, 4)]⟩).1.min = some mn ∧
      (EventService.get_statistics 0 ⟨[(0, (2 : ℚ)), (0, 4)]⟩).1.mean = some me ∧
      (EventService.get_statistics 0 ⟨[(0, (2 : ℚ)), (0, 4)]⟩).1.max = some mx ∧
      (EventStore.get_recent_stats 0 ⟨[(0, (2 : ℚ)), (0, 4)]⟩).1.min = some mn ∧
      (EventStore.get_recent_stats 0 ⟨[(0, (2 : ℚ)), (0, 4)]⟩).1.mean = some me ∧
      (EventStore.get_recent_stats 0 ⟨[(0, (2 : ℚ)), (0, 4)]⟩).1.max = some mx ∧
      mn ≤ me ∧ me ≤ mx :=
  C5_amended_ordered 0 ⟨[(0, 2), (0, 4)]⟩ (by decide)

/-- C6: repeating `summary(now)` with the same `now` and no intervening
`record` returns the identical result in both implementations, even though
the first call may have evicted entries: the evicted entries were outside
the window, so the second call filters the same values. -/
theorem C6_repeat_summary (now : Time) (s : State ℚ) :
    (EventService.get_statistics now ((EventService.get_statistics now s).2)).1
      = (EventService.get_statistics now s).1 ∧
    (EventStore.get_recent_stats now ((EventStore.get_recent_stats now s).2)).1
      = (EventStore.get_recent_stats now s).1 := by
  constructor
  · rw [get_statistics_fst, get_statistics_fst, get_statistics_snd,
      recent_values_dropOld (le_refl (now - TIME_WINDOW))]
  · rw [get_recent_stats_fst, get_recent_stats_fst, get_recent_stats_snd,
      recent_values_dropOld (le_refl (now - TIME_WINDOW))]

/-- C8: under clock values that never exceed the query instant (as with a
non-decreasing clock queried last), a run of `record` and `summary` calls
never loses an event that is in-window at the query: the summary over the
maintained (evicted) store equals the summary over the full recorded
history, even when timestamps arrive out of order. -/
theorem C8_eviction_never_undercounts (ops : List SOp) (nowq : Time)
    (hmono : ∀ op ∈ ops, SOp.nowLe nowq op = true) (hnc : SOp.clearAll ∉ ops) :
    (EventService.get_statistics nowq (runSOps ops ⟨[]⟩)).1
      = (EventService.get_statistics nowq ⟨recordedOf ops⟩).1 := by
  rw [get_statistics_fst, get_statistics_fst, runSOps_recent nowq ops ⟨[]⟩ hmono hnc]
  simp

/-- C8 witness: a trace with a backdated record, an interleaved query and a
stale record, queried at time 30: the maintained store and the full history
yield the same summary. -/
theorem C8_eviction_never_undercounts_witness :
    (EventService.get_statistics 30
        (runSOps [SOp.record 0 (-100) 5, SOp.query 10, SOp.record 20 (-4000) 7] ⟨[]⟩)).1
      = (EventService.get_statistics 30
          ⟨recordedOf [SOp.record 0 (-100) 5, SOp.query 10, SOp.record 20 (-4000) 7]⟩).1 :=
  C8_eviction_never_undercounts _ 30 (by decide) (by decide)

/-- C9: after any sequence of `record`/`summary`/`clear` calls on
`EventService`, and any sequence of `record`/`summary` calls on `EventStore`
(which has no clear), the stored deque is a contiguous suffix of the
arrival-ordered sequence of all recorded events: appends happen only at the
back, eviction removes only from the front, and retained events are never
reordered or mutated. -/
theorem C9_contiguous_suffix (ops : List SOp) (eops : List EOp) :
    (runSOps ops ⟨[]⟩).events <:+ recordedOf ops ∧
    (runEOps eops ⟨[]⟩).events <:+ recordedE eops := by
  constructor
  · simpa using runSOps_suffix ops ⟨[]⟩ [] (by simp)
  · simpa using runEOps_suffix eops ⟨[]⟩ [] (by simp)

/-- C10: the two parallel implementations are observationally equivalent:
for every sequence of `record` calls whose clock values are at most the
query instant, `EventService.get_statistics` (which evicts on record) and
`EventStore.get_recent_stats` (which never evicts on record) return equal
results — count, min, max and mean, the means compared in exact
arithmetic. -/
theorem C10_implementations_agree (rs : List RecCall) (nowq : Time)
    (h : ∀ r ∈ rs, r.now ≤ nowq) :
    (EventService.get_statistics nowq (runRecords rs ⟨[]⟩)).1
      = (EventStore.get_recent_stats nowq (runStoreRecords rs ⟨[]⟩)).1 := by
  rw [get_statistics_fst, get_recent_stats_fst, runStoreRecords_events rs ⟨[]⟩,
    runRecords_recent nowq rs ⟨[]⟩ h]

/-- C10 witness: a concrete two-record trace (one event already stale at the
query instant) on which both implementations return the same summary. -/
theorem C10_implementations_agree_witness :
    (EventService.get_statistics 50
        (runRecords [({ now := 0, ts := -100, v := 5 } : RecCall),
          { now := 50, ts := 40, v := 7 }] ⟨[]⟩)).1
      = (EventStore.get_recent_stats 50
          (runStoreRecords [({ now := 0, ts := -100, v := 5 } : RecCall),
            { now := 50, ts := 40, v := 7 }] ⟨[]⟩)).1 :=
  C10_implementations_agree _ 50 (by decide)

/-- C3 amended, witness: one in-window record (timestamp 100 seconds before
the query) is counted by the summary and by the lower-bound-only filter. -/
theorem C3_amended_count_witness :
    (EventService.get_statistics 0
        (runRecords [({ now := 0, ts := -100, v := 5 } : RecCall)] ⟨[]⟩)).1.count
      = ((history [({ now := 0, ts := -100, v := 5 } : RecCall)]).filter
          fun e => 0 - TIME_WINDOW ≤ e.1).length :=
  C3_amended_count _ 0 (by decide)

/-- A concrete stand-in for the injected `datetime.fromisoformat`, accepting
exactly the one normalised timestamp string the counterexample submits. -/
def parseTs0 : String → Option Time := fun s =>
  if s = "2025-06-26T14:30:00+00:00" then some 1750948200 else none

/-- C7 counterexample: a request whose `value` field is the JSON STRING
`"12.3"` — not a number — is accepted: `float()` coerces numeric strings,
so the handler stores the event and answers 201 where the claim requires a
4xx with the store unmodified.  Likewise the whitespace-padded spelling
`" -Infinity "` is accepted and stores negative infinity. -/
theorem C7_counterexample :
    post_event parseTs0
        (some [("timestamp", Json.str "2025-06-26T14:30:00Z"), ("value", Json.str "12.3")])
      = ⟨201, some (1750948200, PyFloat.fin (mkRat 123 10))⟩ ∧
    post_event parseTs0
        (some [("timestamp", Json.str "2025-06-26T14:30:00Z"),
          ("value", Json.str " -Infinity ")])
      = ⟨201, some (1750948200, PyFloat.ninf)⟩ ∧
    ∀ q : ℚ, Json.str "12.3" ≠ Json.num q := by
  refine ⟨by decide, by decide, fun q h => by cases h⟩

/-- C7 amended: for every request body that is a JSON object (or absent),
the handler answers 201 or answers 400 with the store unmodified; it
answers 201 — storing exactly the parsed event — precisely when the
`timestamp` field is a string accepted by the timestamp parser and the
`value` field is accepted by Python's `float()`, which coerces JSON
numbers, booleans AND numeric strings (so a numeric string, though not a
number, is accepted rather than rejected). -/
theorem C7_amended_post_event (parseTs : String → Option Time)
    (body : Option (List (String × Json))) :
    ((post_event parseTs body).status = 201 ∨
      ((post_event parseTs body).status = 400 ∧
        (post_event parseTs body).recorded = none)) ∧
    ((post_event parseTs body).status = 201 ↔
      ∃ fields tss ts vj v, body = some fields ∧
        lookupField fields "timestamp" = some (Json.str tss) ∧
        parseTs (replaceZ tss) = some ts ∧
        lookupField fields "value" = some vj ∧
        float_of vj = some v ∧
        (post_event parseTs body).recorded = some (ts, v)) := by
  rcases body with _ | fields
  · refine ⟨Or.inr ⟨rfl, rfl⟩, ?_, ?_⟩
    · intro h; exact absurd h (by simp [post_event])
    · rintro ⟨fields, tss, ts, vj, v, hb, -⟩; cases hb
  rcases fields with _ | ⟨f, fs⟩
  · refine ⟨Or.inr ⟨rfl, rfl⟩, ?_, ?_⟩
    · intro h; exact absurd h (by simp [post_event])
    · rintro ⟨fields, tss, ts, vj, v, hb, hts, -⟩
      cases hb; cases hts
  cases h1 : lookupField (f :: fs) "timestamp" with
  | none =>
      have hre : post_event parseTs (some (f :: fs)) = ⟨400, none⟩ := by
        simp [post_event, h1]
      rw [hre]
      refine ⟨Or.inr ⟨rfl, rfl⟩, ?_, ?_⟩
      · intro h; exact absurd h (by simp)
      · rintro ⟨fields, tss, ts, vj, v, hb, hts, -⟩
        cases hb; rw [h1] at hts; cases hts
  | some tsj =>
      cases h2 : lookupField (f :: fs) "value" with
      | none =>
          have hre : post_event parseTs (some (f :: fs)) = ⟨400, none⟩ := by
            simp [post_event, h1, h2]
          rw [hre]
          refine ⟨Or.inr ⟨rfl, rfl⟩, ?_, ?_⟩
          · intro h; exact absurd h (by simp)
          · rintro ⟨fields, tss, ts, vj, v, hb, hts, hpts, hv, -⟩
            cases hb; rw [h2] at hv; cases hv
      | some vj0 =>
          cases tsj with
          | str s0 =>
              cases h3 : parseTs (replaceZ s0) with
              | none =>
                  have hre : post_event parseTs (some (f :: fs)) = ⟨400, none⟩ := by
                    simp [post_event, h1, h2, h3]
                  rw [hre]
                  refine ⟨Or.inr ⟨rfl, rfl⟩, ?_, ?_⟩
                  · intro h; exact absurd h (by simp)
                  · rintro ⟨fields, tss, ts, vj, v, hb, hts, hpts, -⟩
                    cases hb; rw [h1] at hts
                    injection hts with hts'
                    injection hts' with htss
                    rw [← htss] at hpts
                    rw [h3] at hpts; cases hpts
              | some ts0 =>
                  cases h4 : float_of vj0 with
                  | none =>
                      have hre : post_event parseTs (some (f :: fs)) = ⟨400, none⟩ := by
                        simp [post_event, h1, h2, h3, h4]
                      rw [hre]
                      refine ⟨Or.inr ⟨rfl, rfl⟩, ?_, ?_⟩
                      · intro h; exact absurd h (by simp)
                      · rintro ⟨fields, tss, ts, vj, v, hb, hts, hpts, hv, hfv, -⟩
                        cases hb; rw [h2] at hv
                        injection hv with hv'
                        rw [← hv'] at hfv
                        rw [h4] at hfv; cases hfv
                  | some v0 =>
                      have hre : post_event parseTs (some (f :: fs))
                          = ⟨201, some (ts0, v0)⟩ := by
                        simp [post_event, h1, h2, h3, h4]
                      rw [hre]
                      refine ⟨Or.inl rfl, ?_, ?_⟩
                      · intro _
                        exact ⟨f :: fs, s0, ts0, vj0, v0, rfl, h1, h3, h2, h4, rfl⟩
                      · intro _; rfl
          | null =>
              have hre : post_event parseTs (some (f :: fs)) = ⟨400, none⟩ := by
                simp [post_event, h1, h2]
              rw [hre]
              refine ⟨Or.inr ⟨rfl, rfl⟩, ?_, ?_⟩
              · intro h; exact absurd h (by simp)
              · rintro ⟨fields, tss, ts, vj, v, hb, hts, -⟩
                cases hb; rw [h1] at hts; cases hts
          | bool b =>
              have hre : post_event parseTs (some (f :: fs)) = ⟨400, none⟩ := by
                simp [post_event, h1, h2]
              rw [hre]
              refine ⟨Or.inr ⟨rfl, rfl⟩, ?_, ?_⟩
              · intro h; exact absurd h (by simp)
              · rintro ⟨fields, tss, ts, vj, v, hb, hts, -⟩
                cases hb; rw [h1] at hts; cases hts
          | num q =>
              have hre : post_event parseTs (some (f :: fs)) = ⟨400, none⟩ := by
                simp [post_event, h1, h2]
              rw [hre]
              refine ⟨Or.inr ⟨rfl, rfl⟩, ?_, ?_⟩
              · intro h; exact absurd h (by simp)
              · rintro ⟨fields, tss, ts, vj, v, hb, hts, -⟩
                cases hb; rw [h1] at hts; cases hts
          | arr elems =>
              have hre : post_event parseTs (some (f :: fs)) = ⟨400, none⟩ := by
                simp [post_event, h1, h2]
              rw [hre]
              refine ⟨Or.inr ⟨rfl, rfl⟩, ?_, ?_⟩
              · intro h; exact absurd h (by simp)
              · rintro ⟨fields, tss, ts, vj, v, hb, hts, -⟩
                cases hb; rw [h1] at hts; cases hts
          | obj fields2 =>
              have hre : post_event parseTs (some (f :: fs)) = ⟨400, none⟩ := by
                simp [post_event, h1, h2]
              rw [hre]
              refine ⟨Or.inr ⟨rfl, rfl⟩, ?_, ?_⟩
              · intro h; exact absurd h (by simp)
              · rintro ⟨fields, tss, ts, vj, v, hb, hts, -⟩
                cases hb; rw [h1] at hts; cases hts
